import Mathlib

/-!
Shallow embedding of `src/lab7.cpp`: a `VectorRam<T>` array class with a
sequential range sum, a multithreaded range sum (static partition, per-thread
local sums merged under a mutex), full-range convenience overloads, and timed
`SumFR` wrappers returning a `FuncResult` (value plus elapsed microseconds).

Machine integers: indices and sizes are C++ `size_t`, naturals modulo
`W64 = 2^64`; `szAdd`, `szSub`, `szMul` are `size_t` arithmetic.
Element values are embedded as unbounded `Int` (the claims are about integer
element types; machine sums are the `Int` sums reduced modulo the element
width, so exact `Int` equalities imply the machine equalities).

The summing loop `for (size_t i = indStart; i <= indEnd; i++)` terminates
iff `indStart > indEnd` (zero iterations) or `indEnd < 2^64 - 1`; when
`indEnd = 2^64 - 1` and `indStart <= indEnd` the counter can never exceed
`indEnd`, so the loop never exits (reading far out of bounds on the way).
Every operation is therefore `Option`-valued, with `none` standing for
"no value is ever returned" (it also models the undefined division by zero
when `threadsNum = 0`).  The buffer is threaded through each operation as
explicit state (the `...St` versions) so that read-only-ness of the
reduction is a theorem rather than a typing convention.

The merge of per-thread local sums happens under a mutex in an unspecified
order; over `Int` the merged total is independent of that order, and the
fold below realizes it in thread-index order.
-/

def W64 : Nat := 2 ^ 64

/-- `size_t` addition. -/
def szAdd (a b : Nat) : Nat := (a + b) % W64

/-- `size_t` subtraction (two's-complement wraparound). -/
def szSub (a b : Nat) : Nat := (W64 + a - b) % W64

/-- `size_t` multiplication. -/
def szMul (a b : Nat) : Nat := (a * b) % W64

/-- The loop `for (size_t i = ...; ...; i++) acc += data[i]` run for `n`
iterations starting at index `i` (lab7.cpp lines 37-40 and 91-94), with the
buffer threaded through as state: the body reads `data[i]` and updates only
the accumulator. -/
def sumLoop : ((Nat → Int) × Int) → Nat → Nat → ((Nat → Int) × Int)
  | st, _, 0 => st
  | (d, acc), i, n + 1 => sumLoop (d, acc + d i) (i + 1) n

/-- The value accumulated by `n` iterations of the summing loop starting at
index `i` with accumulator `0`. -/
def msum (d : Nat → Int) (i n : Nat) : Int := (sumLoop (d, 0) i n).2

/-- `thread_sum` (lab7.cpp lines 30-46), state-passing form: sums
`data[indStart..indEnd]` into a local accumulator, then merges it into the
shared `sum` under the mutex.  Returns the buffer state and the updated
shared sum; `none` when `indEnd = 2^64 - 1` with a nonempty range, where the
`size_t` counter wraps and the loop never exits. -/
def thread_sumSt (data : Nat → Int) (indStart indEnd : Nat) (sum : Int) :
    ((Nat → Int) × Option Int) :=
  if indStart ≤ indEnd ∧ indEnd = W64 - 1 then (data, none)
  else
    let r := sumLoop (data, 0) indStart (indEnd + 1 - indStart)
    (r.1, some (sum + r.2))

/-- `thread_sum`, result component: the updated shared sum. -/
def thread_sum (data : Nat → Int) (indStart indEnd : Nat) (sum : Int) :
    Option Int :=
  (thread_sumSt data indStart indEnd sum).2

/-- `VectorRam<T>` at `T = Int` (lab7.cpp lines 49-60): a `size` field and
the allocated array, modelled as a total map on indices (indices at or above
`size` are outside the allocation). -/
structure VectorRam where
  size : Nat
  data : Nat → Int

/-- The constructor `VectorRam(size_t size)` (lab7.cpp lines 57-60): stores
`size` and does `data = new T[size]`.  There is no validation: `new T[0]` is
a valid zero-element allocation, so construction never fails; `contents`
models the indeterminate initial values of the fresh allocation. -/
def VectorRam.create (size : Nat) (contents : Nat → Int) : Option VectorRam :=
  some { size := size, data := contents }

/-- `InitByVal` (lab7.cpp lines 69-75): writes `val` at indices `0..size-1`. -/
def VectorRam.InitByVal (v : VectorRam) (val : Int) : VectorRam :=
  { v with data := fun i => if i < v.size then val else v.data i }

/-- Sequential `Sum(size_t indStart, size_t indEnd)` (lab7.cpp lines 88-96),
state-passing form. -/
def VectorRam.SumSt (v : VectorRam) (indStart indEnd : Nat) :
    ((Nat → Int) × Option Int) :=
  if indStart ≤ indEnd ∧ indEnd = W64 - 1 then (v.data, none)
  else
    let r := sumLoop (v.data, 0) indStart (indEnd + 1 - indStart)
    (r.1, some r.2)

/-- Sequential `Sum(size_t indStart, size_t indEnd)`, result component. -/
def VectorRam.Sum (v : VectorRam) (indStart indEnd : Nat) : Option Int :=
  (v.SumSt indStart indEnd).2

/-- `blockSize = indEnd - indStart + 1` in `size_t` (lab7.cpp line 109). -/
def blockSize (indStart indEnd : Nat) : Nat := szAdd (szSub indEnd indStart) 1

/-- `thBlockSize = blockSize / threadsNum` (lab7.cpp line 111). -/
def thBlockSize (indStart indEnd threadsNum : Nat) : Nat :=
  blockSize indStart indEnd / threadsNum

/-- `thIndStart = indStart + i * thBlockSize` in `size_t` (lab7.cpp line 116). -/
def thIndStart (indStart indEnd threadsNum i : Nat) : Nat :=
  szAdd indStart (szMul i (thBlockSize indStart indEnd threadsNum))

/-- `thIndEnd = thIndStart + thBlockSize - 1` in `size_t`, overridden to
`indEnd` for the last thread (lab7.cpp lines 117-119). -/
def thIndEnd (indStart indEnd threadsNum i : Nat) : Nat :=
  if i = threadsNum - 1 then indEnd
  else
    szSub (szAdd (thIndStart indStart indEnd threadsNum i)
                 (thBlockSize indStart indEnd threadsNum)) 1

/-- One iteration of the thread-launch loop (lab7.cpp lines 114-122) merged
with that thread's `thread_sum` contribution: if some earlier thread never
returns, no total is ever produced. -/
def parStep (indStart indEnd threadsNum : Nat)
    (st : (Nat → Int) × Option Int) (i : Nat) : (Nat → Int) × Option Int :=
  match st.2 with
  | none => st
  | some acc =>
      thread_sumSt st.1 (thIndStart indStart indEnd threadsNum i)
        (thIndEnd indStart indEnd threadsNum i) acc

/-- Parallel `Sum(size_t indStart, size_t indEnd, unsigned threadsNum)`
(lab7.cpp lines 105-131), state-passing form.  `threadsNum = 0` makes
line 111 divide by zero (undefined behavior): `none`. -/
def VectorRam.SumParSt (v : VectorRam) (indStart indEnd threadsNum : Nat) :
    ((Nat → Int) × Option Int) :=
  if threadsNum = 0 then (v.data, none)
  else (List.range threadsNum).foldl (parStep indStart indEnd threadsNum)
    (v.data, some 0)

/-- Parallel `Sum(size_t, size_t, unsigned)`, result component. -/
def VectorRam.SumPar (v : VectorRam) (indStart indEnd threadsNum : Nat) :
    Option Int :=
  (v.SumParSt indStart indEnd threadsNum).2

/-- `Sum()` (lab7.cpp lines 99-102): `Sum(0, size - 1)` with `size - 1`
computed in `size_t`. -/
def VectorRam.SumFull (v : VectorRam) : Option Int :=
  v.Sum 0 (szSub v.size 1)

/-- `Sum(unsigned threadsNum)` (lab7.cpp lines 134-137). -/
def VectorRam.SumFullPar (v : VectorRam) (threadsNum : Nat) : Option Int :=
  v.SumPar 0 (szSub v.size 1) threadsNum

/-- `FuncResult<T>` (lab7.cpp lines 11-27): a function result together with
the elapsed time in microseconds. -/
structure FuncResult (T : Type) where
  _result : T
  _time : Int

/-- `SumFR(size_t, size_t)` (lab7.cpp lines 140-150), state-passing form:
reads the clock, calls `Sum`, reads the clock again; `t` is the measured
elapsed duration (an input from the external monotonic clock). -/
def VectorRam.SumFRSt (v : VectorRam) (indStart indEnd : Nat) (t : Int) :
    ((Nat → Int) × Option (FuncResult Int)) :=
  let r := v.SumSt indStart indEnd
  (r.1, r.2.map (fun x => FuncResult.mk x t))

/-- `SumFR(size_t, size_t)`, result component. -/
def VectorRam.SumFR (v : VectorRam) (indStart indEnd : Nat) (t : Int) :
    Option (FuncResult Int) :=
  (v.SumFRSt indStart indEnd t).2

/-- `SumFR(size_t, size_t, unsigned)` (lab7.cpp lines 159-169),
state-passing form. -/
def VectorRam.SumFRParSt (v : VectorRam) (indStart indEnd threadsNum : Nat)
    (t : Int) : ((Nat → Int) × Option (FuncResult Int)) :=
  let r := v.SumParSt indStart indEnd threadsNum
  (r.1, r.2.map (fun x => FuncResult.mk x t))

/-- `SumFR(size_t, size_t, unsigned)`, result component. -/
def VectorRam.SumFRPar (v : VectorRam) (indStart indEnd threadsNum : Nat)
    (t : Int) : Option (FuncResult Int) :=
  (v.SumFRParSt indStart indEnd threadsNum t).2

/-- `SumFR()` (lab7.cpp lines 153-156): `SumFR(0, size - 1)` with `size - 1`
computed in `size_t`. -/
def VectorRam.SumFRFull (v : VectorRam) (t : Int) : Option (FuncResult Int) :=
  v.SumFR 0 (szSub v.size 1) t

/-- `SumFR(unsigned threadsNum)` (lab7.cpp lines 172-175). -/
def VectorRam.SumFRFullPar (v : VectorRam) (threadsNum : Nat) (t : Int) :
    Option (FuncResult Int) :=
  v.SumFRPar 0 (szSub v.size 1) threadsNum t

/-! ## Basic lemmas about the machine arithmetic and the summing loop -/

lemma W64_pos : 0 < W64 := by norm_num [W64]

lemma szAdd_eq (a b : Nat) (h : a + b < W64) : szAdd a b = a + b :=
  Nat.mod_eq_of_lt h

lemma szAdd_lt (a b : Nat) : szAdd a b < W64 :=
  Nat.mod_lt _ W64_pos

lemma szMul_eq (a b : Nat) (h : a * b < W64) : szMul a b = a * b :=
  Nat.mod_eq_of_lt h

lemma szSub_eq_sub (a b : Nat) (hba : b ≤ a) (ha : a < W64) :
    szSub a b = a - b := by
  unfold szSub
  rw [Nat.add_sub_assoc hba, Nat.add_mod_left]
  exact Nat.mod_eq_of_lt (lt_of_le_of_lt (Nat.sub_le a b) ha)

lemma szSub_wrap (a b : Nat) (hab : a < b) (hb : b ≤ W64) :
    szSub a b = W64 + a - b := by
  unfold szSub
  have h : W64 + a - b < W64 := by omega
  exact Nat.mod_eq_of_lt h

lemma sumLoop_fst (d : Nat → Int) (a : Int) (i n : Nat) :
    (sumLoop (d, a) i n).1 = d := by
  induction n generalizing a i with
  | zero => rfl
  | succ n ih => simpa [sumLoop] using ih (a + d i) (i + 1)

lemma sumLoop_snd (d : Nat → Int) (a : Int) (i n : Nat) :
    (sumLoop (d, a) i n).2 = a + msum d i n := by
  induction n generalizing a i with
  | zero => simp [sumLoop, msum]
  | succ n ih =>
      show (sumLoop (d, a + d i) (i + 1) n).2 = a + msum d i (n + 1)
      rw [ih]
      have h2 : msum d i (n + 1) = d i + msum d (i + 1) n := by
        show (sumLoop (d, 0 + d i) (i + 1) n).2 = _
        rw [ih]; ring
      rw [h2]; ring

lemma msum_zero (d : Nat → Int) (i : Nat) : msum d i 0 = 0 := rfl

lemma msum_succ (d : Nat → Int) (i n : Nat) :
    msum d i (n + 1) = d i + msum d (i + 1) n := by
  show (sumLoop (d, 0 + d i) (i + 1) n).2 = _
  rw [sumLoop_snd]; ring

lemma msum_add (m : Nat) : ∀ (d : Nat → Int) (i n : Nat),
    msum d i (m + n) = msum d i m + msum d (i + m) n := by
  induction m with
  | zero => intro d i n; simp [msum_zero]
  | succ m ih =>
      intro d i n
      calc msum d i (m + 1 + n) = msum d i (m + n + 1) := by rw [Nat.succ_add]
        _ = d i + msum d (i + 1) (m + n) := msum_succ d i (m + n)
        _ = d i + (msum d (i + 1) m + msum d (i + 1 + m) n) := by rw [ih]
        _ = (d i + msum d (i + 1) m) + msum d (i + 1 + m) n := by ring
        _ = msum d i (m + 1) + msum d (i + 1 + m) n := by rw [msum_succ]
        _ = msum d i (m + 1) + msum d (i + (m + 1)) n := by
              rw [show i + 1 + m = i + (m + 1) from by omega]

lemma thread_sumSt_fst (d : Nat → Int) (x y : Nat) (a : Int) :
    (thread_sumSt d x y a).1 = d := by
  unfold thread_sumSt
  split
  · rfl
  · exact sumLoop_fst d 0 x (y + 1 - x)

lemma thread_sumSt_val (d : Nat → Int) (x y : Nat) (a : Int)
    (h : ¬(x ≤ y ∧ y = W64 - 1)) :
    thread_sumSt d x y a = (d, some (a + msum d x (y + 1 - x))) := by
  unfold thread_sumSt
  rw [if_neg h]
  show (_, _) = _
  rw [sumLoop_fst]
  rfl

lemma parStep_fst (s e tn : Nat) (st : (Nat → Int) × Option Int) (i : Nat) :
    (parStep s e tn st i).1 = st.1 := by
  rcases st with ⟨d, o⟩
  cases o <;> simp [parStep, thread_sumSt_fst]

lemma foldl_parStep_fst (s e tn : Nat) (l : List Nat)
    (st : (Nat → Int) × Option Int) :
    (l.foldl (parStep s e tn) st).1 = st.1 := by
  induction l generalizing st with
  | nil => rfl
  | cons a l ih => rw [List.foldl_cons, ih, parStep_fst]

lemma sumSt_fst (v : VectorRam) (s e : Nat) : (v.SumSt s e).1 = v.data := by
  unfold VectorRam.SumSt
  split
  · rfl
  · exact sumLoop_fst v.data 0 s (e + 1 - s)

lemma sumParSt_fst (v : VectorRam) (s e tn : Nat) :
    (v.SumParSt s e tn).1 = v.data := by
  unfold VectorRam.SumParSt
  split
  · rfl
  · exact foldl_parStep_fst s e tn _ _

/-! ## Claims C3-C10 -/

/-- C3: the claim says `workerCount = 0` fails with `InvalidArgument` and
never divides by zero.  The code instead reaches `blockSize / threadsNum`
(line 111) with `threadsNum = 0`, an undefined division by zero: no
`InvalidArgument` error value is ever produced; the call has no defined
result (`none`). -/
theorem claim_C3 (v : VectorRam) (indStart indEnd : Nat) :
    v.SumPar indStart indEnd 0 = none := rfl

/-- C4: the claim says that for a length-1 buffer and `workerCount = 8` the
seven non-last workers get empty ranges, iterate zero times and contribute
zero, and the total is the single element.  In the code, worker 0 gets
`thIndStart = 0` and `thIndEnd = 0 + 0 - 1`, which wraps to `2^64 - 1` in
`size_t`: its loop covers the whole address space, reads out of bounds and
never exits, so no total is ever returned — while the sequential sum of the
same range is the single element `1`. -/
theorem claim_C4 :
    thIndStart 0 0 8 0 = 0 ∧ thIndEnd 0 0 8 0 = W64 - 1 ∧
    ((VectorRam.mk 1 (fun _ => 0)).InitByVal 1).SumPar 0 0 8 = none ∧
    ((VectorRam.mk 1 (fun _ => 0)).InitByVal 1).Sum 0 0 = some 1 := by
  decide

/-- C5 counterexample: the claim says the partitions for a length-8 buffer
and `workerCount = 3` are `[0,2],[3,5],[6,7]`.  The code computes
`thBlockSize = 8 / 3 = 2`, so worker 0's partition is `[0,1]`, not `[0,2]`. -/
theorem claim_C5_cex :
    (thIndStart 0 7 3 0, thIndEnd 0 7 3 0) ≠ (0, 2) := by decide

/-- C5 amended: for a buffer of length 8 filled with `1` and
`workerCount = 3` over `[0,7]`, the block size is `8 / 3 = 2` and the
computed partitions are `[0,1]`, `[2,3]`, `[4,7]` (lengths 2, 2, 4); the
three workers' local sums are 2, 2 and 4, and the merged total is 8. -/
theorem claim_C5 :
    thBlockSize 0 7 3 = 2 ∧
    (thIndStart 0 7 3 0, thIndEnd 0 7 3 0) = (0, 1) ∧
    (thIndStart 0 7 3 1, thIndEnd 0 7 3 1) = (2, 3) ∧
    (thIndStart 0 7 3 2, thIndEnd 0 7 3 2) = (4, 7) ∧
    thread_sum (((VectorRam.mk 8 (fun _ => 0)).InitByVal 1).data) 0 1 0
      = some 2 ∧
    thread_sum (((VectorRam.mk 8 (fun _ => 0)).InitByVal 1).data) 2 3 0
      = some 2 ∧
    thread_sum (((VectorRam.mk 8 (fun _ => 0)).InitByVal 1).data) 4 7 0
      = some 4 ∧
    ((VectorRam.mk 8 (fun _ => 0)).InitByVal 1).SumPar 0 7 3 = some 8 := by
  decide

/-- C6: the timing wrapper does not alter the wrapped operation's result:
the `_result` field of the `FuncResult` returned by `SumFR` (sequential and
parallel) equals the value of the corresponding un-timed `Sum` call on the
same arguments, for every buffer, range, thread count and measured time. -/
theorem claim_C6 (v : VectorRam) (indStart indEnd threadsNum : Nat) (t : Int) :
    (v.SumFR indStart indEnd t).map FuncResult._result
      = v.Sum indStart indEnd ∧
    (v.SumFRPar indStart indEnd threadsNum t).map FuncResult._result
      = v.SumPar indStart indEnd threadsNum := by
  constructor
  · cases h : (v.SumSt indStart indEnd).2 <;>
      simp [VectorRam.SumFR, VectorRam.SumFRSt, VectorRam.Sum, h]
  · cases h : (v.SumParSt indStart indEnd threadsNum).2 <;>
      simp [VectorRam.SumFRPar, VectorRam.SumFRParSt, VectorRam.SumPar, h]

/-- C7 counterexample: the claim says buffer creation with requested length
0 fails with `InvalidArgument`.  The constructor has no validation:
`new T[0]` is a valid zero-element allocation, so creation with length 0
succeeds. -/
theorem claim_C7_cex : (VectorRam.create 0 (fun _ => 0)).isSome = true := rfl

/-- C7 amended: buffer creation never fails; for every requested length
(including 0) it produces a buffer whose `size` is exactly the request and
whose storage holds that many elements (with indeterminate initial
contents). -/
theorem claim_C7 (n : Nat) (c : Nat → Int) :
    ∃ v : VectorRam, VectorRam.create n c = some v ∧ v.size = n ∧
      ∀ i : Nat, v.data i = c i :=
  ⟨⟨n, c⟩, rfl, rfl, fun _ => rfl⟩

/-- C8: every reduction operation (sequential `Sum`, parallel `Sum`, and the
timed `SumFR` variants) leaves the buffer contents unchanged: the buffer
state threaded through each operation agrees with the initial buffer at
every index. -/
theorem claim_C8 (v : VectorRam) (indStart indEnd threadsNum : Nat) (t : Int)
    (i : Nat) :
    (v.SumSt indStart indEnd).1 i = v.data i ∧
    (v.SumParSt indStart indEnd threadsNum).1 i = v.data i ∧
    (v.SumFRSt indStart indEnd t).1 i = v.data i ∧
    (v.SumFRParSt indStart indEnd threadsNum t).1 i = v.data i :=
  ⟨congrFun (sumSt_fst v indStart indEnd) i,
   congrFun (sumParSt_fst v indStart indEnd threadsNum) i,
   congrFun (sumSt_fst v indStart indEnd) i,
   congrFun (sumParSt_fst v indStart indEnd threadsNum) i⟩

/-- C9: in the parallel sum, a zero-size block given to a non-last worker is
safe exactly when its start index is at least 1: then
`thIndEnd = thIndStart - 1`, the worker's loop runs zero iterations and it
contributes 0 to the shared total; when `thIndStart = 0` the `size_t`
subtraction `thIndStart + thBlockSize - 1` wraps to `2^64 - 1`, the range is
not empty, and the worker's loop never returns. -/
theorem claim_C9 (indStart indEnd threadsNum i : Nat)
    (hi : i < threadsNum) (hlast : i ≠ threadsNum - 1)
    (hb : thBlockSize indStart indEnd threadsNum = 0) :
    (1 ≤ thIndStart indStart indEnd threadsNum i →
      thIndEnd indStart indEnd threadsNum i
        = thIndStart indStart indEnd threadsNum i - 1 ∧
      ∀ (d : Nat → Int) (a : Int),
        thread_sum d (thIndStart indStart indEnd threadsNum i)
          (thIndEnd indStart indEnd threadsNum i) a = some a) ∧
    (thIndStart indStart indEnd threadsNum i = 0 →
      thIndEnd indStart indEnd threadsNum i = W64 - 1 ∧
      ∀ (d : Nat → Int) (a : Int),
        thread_sum d (thIndStart indStart indEnd threadsNum i)
          (thIndEnd indStart indEnd threadsNum i) a = none) := by
  have hts_lt : thIndStart indStart indEnd threadsNum i < W64 := szAdd_lt _ _
  have hEnd : thIndEnd indStart indEnd threadsNum i
      = szSub (thIndStart indStart indEnd threadsNum i) 1 := by
    unfold thIndEnd
    rw [if_neg hlast, hb]
    rw [szAdd_eq _ 0 (by omega), Nat.add_zero]
  constructor
  · intro h1
    have hsub : szSub (thIndStart indStart indEnd threadsNum i) 1
        = thIndStart indStart indEnd threadsNum i - 1 :=
      szSub_eq_sub _ 1 h1 hts_lt
    refine ⟨by rw [hEnd, hsub], ?_⟩
    intro d a
    rw [thread_sum, hEnd, hsub,
      thread_sumSt_val d _ _ a (by intro hc; omega)]
    have hn : thIndStart indStart indEnd threadsNum i - 1 + 1
        - thIndStart indStart indEnd threadsNum i = 0 := by omega
    rw [hn, msum_zero]
    simp
  · intro h0
    have hsub : szSub (thIndStart indStart indEnd threadsNum i) 1
        = W64 - 1 := by
      rw [h0]
      exact szSub_wrap 0 1 (by norm_num) (by norm_num [W64])
    refine ⟨by rw [hEnd, hsub], ?_⟩
    intro d a
    rw [thread_sum, hEnd, hsub, h0]
    unfold thread_sumSt
    rw [if_pos ⟨Nat.zero_le _, rfl⟩]

/-- C9 witness: a concrete instance — range `[5,5]`, two workers, worker 0:
the block size is 0, the start index is 5 ≥ 1, the computed end index is 4,
and the worker contributes nothing to the shared total. -/
theorem claim_C9_witness :
    thBlockSize 5 5 2 = 0 ∧ 0 < 2 ∧ (0 : Nat) ≠ 2 - 1 ∧
    (1 ≤ thIndStart 5 5 2 0 ∧
      thIndEnd 5 5 2 0 = thIndStart 5 5 2 0 - 1 ∧
      thread_sum (fun _ => 7) (thIndStart 5 5 2 0) (thIndEnd 5 5 2 0) 3
        = some 3) :=
  ⟨by decide, by decide, by decide, by
    have h := (claim_C9 5 5 2 0 (by decide) (by decide) (by decide)).1
      (by decide)
    exact ⟨by decide, h.1, h.2 (fun _ => 7) 3⟩⟩

/-- C10: each full-range convenience overload delegates to the ranged
variant with end index `size - 1` computed in `size_t`; for `size ≥ 1` that
end index is exactly `size - 1`, so the full range `[0, size-1]` is reduced,
while for `size = 0` the end index wraps to `2^64 - 1` and the delegated
sequential sum never returns a value — so `size ≥ 1` is a genuine implicit
precondition. -/
theorem claim_C10 (v : VectorRam) (threadsNum : Nat) (t : Int)
    (hW : v.size < W64) :
    v.SumFull = v.Sum 0 (szSub v.size 1) ∧
    v.SumFullPar threadsNum = v.SumPar 0 (szSub v.size 1) threadsNum ∧
    v.SumFRFull t = v.SumFR 0 (szSub v.size 1) t ∧
    v.SumFRFullPar threadsNum t = v.SumFRPar 0 (szSub v.size 1) threadsNum t ∧
    (1 ≤ v.size → szSub v.size 1 = v.size - 1) ∧
    (v.size = 0 → szSub v.size 1 = W64 - 1 ∧ v.SumFull = none) := by
  refine ⟨rfl, rfl, rfl, rfl, ?_, ?_⟩
  · intro h1
    exact szSub_eq_sub v.size 1 h1 hW
  · intro h0
    have hsub : szSub v.size 1 = W64 - 1 := by
      rw [h0]
      exact szSub_wrap 0 1 (by norm_num) (by norm_num [W64])
    refine ⟨hsub, ?_⟩
    rw [VectorRam.SumFull, hsub, VectorRam.Sum]
    unfold VectorRam.SumSt
    rw [if_pos ⟨Nat.zero_le _, rfl⟩]

/-- C10 witness: concrete instance at a buffer of size 2 — the full-range
sequential overload delegates to the ranged sum over `[0, 1]`. -/
theorem claim_C10_witness :
    (VectorRam.mk 2 (fun _ => 5)).size < W64 ∧
    (VectorRam.mk 2 (fun _ => 5)).SumFull
      = (VectorRam.mk 2 (fun _ => 5)).Sum 0 1 ∧
    szSub (VectorRam.mk 2 (fun _ => 5)).size 1 = 1 := by
  have h := claim_C10 (VectorRam.mk 2 (fun _ => 5)) 3 0 (by decide)
  have hsub : szSub (VectorRam.mk 2 (fun _ => 5)).size 1 = 1 := by decide
  refine ⟨by decide, ?_, hsub⟩
  have h1 := h.1
  rw [hsub] at h1
  exact h1

/-! ## The partition plan in plain natural arithmetic

Under the preconditions `s ≤ e`, `e + 1 < 2^64`, `tn ≥ 1` and
(`1 ≤ s` or `tn ≤ e + 1 - s`), none of the `size_t` operations in the
partitioner wraps, and the computed plan is the textbook one with base block
`b = (e + 1 - s) / tn` and the last worker absorbing the remainder. -/

lemma part_thBlockSize (s e tn : Nat) (hse : s ≤ e) (he1 : e + 1 < W64) :
    thBlockSize s e tn = (e + 1 - s) / tn := by
  unfold thBlockSize blockSize
  rw [szSub_eq_sub e s hse (by omega), szAdd_eq _ 1 (by omega)]
  congr 1
  omega

lemma part_div_mul_le (s e tn : Nat) (htn : 1 ≤ tn) :
    tn * ((e + 1 - s) / tn) ≤ e + 1 - s := by
  have h := Nat.div_mul_le_self (e + 1 - s) tn
  have h2 : tn * ((e + 1 - s) / tn) = (e + 1 - s) / tn * tn := mul_comm _ _
  omega

lemma part_thIndStart (s e tn i : Nat) (hse : s ≤ e) (he1 : e + 1 < W64)
    (htn : 1 ≤ tn) (hi : i < tn) :
    thIndStart s e tn i = s + i * ((e + 1 - s) / tn) := by
  unfold thIndStart
  rw [part_thBlockSize s e tn hse he1]
  have h1 := part_div_mul_le s e tn htn
  have h2 : i * ((e + 1 - s) / tn) ≤ tn * ((e + 1 - s) / tn) :=
    mul_le_mul_right' (le_of_lt hi) _
  rw [szMul_eq i _ (by omega), szAdd_eq s _ (by omega)]

lemma part_thIndEnd_last (s e tn : Nat) : thIndEnd s e tn (tn - 1) = e := by
  unfold thIndEnd
  rw [if_pos rfl]

lemma part_b_pos_or_s_pos (s e tn : Nat) (htn : 1 ≤ tn)
    (hbs : 1 ≤ s ∨ tn ≤ e + 1 - s) :
    1 ≤ (e + 1 - s) / tn ∨ ((e + 1 - s) / tn = 0 ∧ 1 ≤ s) := by
  rcases Nat.eq_zero_or_pos ((e + 1 - s) / tn) with h0 | h1
  · refine Or.inr ⟨h0, ?_⟩
    rcases hbs with h | h
    · exact h
    · exfalso
      have : 1 ≤ (e + 1 - s) / tn := (Nat.one_le_div_iff (by omega)).mpr h
      omega
  · exact Or.inl h1

lemma part_thIndEnd_nonlast (s e tn i : Nat) (hse : s ≤ e) (he1 : e + 1 < W64)
    (htn : 1 ≤ tn) (hi : i < tn - 1) (hbs : 1 ≤ s ∨ tn ≤ e + 1 - s) :
    thIndEnd s e tn i = s + (i + 1) * ((e + 1 - s) / tn) - 1 := by
  unfold thIndEnd
  rw [if_neg (by omega : ¬ i = tn - 1)]
  rw [part_thIndStart s e tn i hse he1 htn (by omega),
    part_thBlockSize s e tn hse he1]
  have h1 := part_div_mul_le s e tn htn
  have h2 : (i + 1) * ((e + 1 - s) / tn) ≤ tn * ((e + 1 - s) / tn) :=
    mul_le_mul_right' (by omega) _
  have h3 : (i + 1) * ((e + 1 - s) / tn)
      = i * ((e + 1 - s) / tn) + (e + 1 - s) / tn := by ring
  rw [szAdd_eq _ _ (by omega)]
  rcases part_b_pos_or_s_pos s e tn htn hbs with hb1 | ⟨hb0, hs1⟩
  · rw [szSub_eq_sub _ 1 (by omega) (by omega)]
    congr 1
    omega
  · rw [hb0]
    rw [szSub_eq_sub _ 1 (by omega) (by omega)]
    simp

lemma part_start_le_e (s e tn i : Nat) (hse : s ≤ e) (he1 : e + 1 < W64)
    (htn : 1 ≤ tn) (hi : i < tn) (hbs : 1 ≤ s ∨ tn ≤ e + 1 - s) :
    s + i * ((e + 1 - s) / tn) ≤ e := by
  have h1 := part_div_mul_le s e tn htn
  rcases part_b_pos_or_s_pos s e tn htn hbs with hb1 | ⟨hb0, _⟩
  · have h2 : i * ((e + 1 - s) / tn) + (e + 1 - s) / tn
        ≤ tn * ((e + 1 - s) / tn) := by
      have : (i + 1) * ((e + 1 - s) / tn) ≤ tn * ((e + 1 - s) / tn) :=
        mul_le_mul_right' (by omega) _
      have h3 : (i + 1) * ((e + 1 - s) / tn)
          = i * ((e + 1 - s) / tn) + (e + 1 - s) / tn := by ring
      omega
    omega
  · rw [hb0]
    omega

lemma part_nonlast_end_le (s e tn i : Nat) (hse : s ≤ e) (he1 : e + 1 < W64)
    (htn : 1 ≤ tn) (hi : i < tn - 1) (hb1 : 1 ≤ (e + 1 - s) / tn) :
    s + (i + 1) * ((e + 1 - s) / tn) - 1 ≤ e - ((e + 1 - s) / tn) + 1 - 1 := by
  have h1 := part_div_mul_le s e tn htn
  have h2 : (i + 1) * ((e + 1 - s) / tn) + ((e + 1 - s) / tn)
      ≤ tn * ((e + 1 - s) / tn) := by
    have h4 : (i + 1 + 1) * ((e + 1 - s) / tn) ≤ tn * ((e + 1 - s) / tn) :=
      mul_le_mul_right' (by omega) _
    have h5 : (i + 1 + 1) * ((e + 1 - s) / tn)
        = (i + 1) * ((e + 1 - s) / tn) + (e + 1 - s) / tn := by ring
    omega
  omega

lemma part_no_cross (s e tn i j x : Nat) (hse : s ≤ e) (he1 : e + 1 < W64)
    (htn : 1 ≤ tn) (hbs : 1 ≤ s ∨ tn ≤ e + 1 - s)
    (hij : i < j) (hj : j < tn)
    (hxi : x ≤ thIndEnd s e tn i) (hxj : thIndStart s e tn j ≤ x) : False := by
  have hi' : i < tn - 1 := by omega
  rw [part_thIndEnd_nonlast s e tn i hse he1 htn hi' hbs] at hxi
  rw [part_thIndStart s e tn j hse he1 htn hj] at hxj
  rcases part_b_pos_or_s_pos s e tn htn hbs with hb1 | ⟨hb0, hs1⟩
  · have hmono : (i + 1) * ((e + 1 - s) / tn) ≤ j * ((e + 1 - s) / tn) :=
      mul_le_mul_right' (by omega) _
    have hA : (e + 1 - s) / tn ≤ (i + 1) * ((e + 1 - s) / tn) :=
      Nat.le_mul_of_pos_left _ (by omega)
    omega
  · rw [hb0] at hxi hxj
    omega

/-- C1 counterexample: for the valid range `[0,0]` with 2 workers the claim
fails as stated: the block size is `1 / 2 = 0` and worker 0's computed end
index `0 + 0 - 1` wraps to `2^64 - 1`, so worker 0's sub-range is
`[0, 2^64-1]` — it overlaps worker 1's `[0,0]` and the union is not `[0,0]`. -/
theorem claim_C1_cex :
    thIndStart 0 0 2 0 = 0 ∧ thIndEnd 0 0 2 0 = W64 - 1 ∧
    thIndStart 0 0 2 1 = 0 ∧ thIndEnd 0 0 2 1 = 0 ∧
    ¬ (∀ x : Nat, (0 ≤ x ∧ x ≤ 0) ↔
        ∃ i, i < 2 ∧ thIndStart 0 0 2 i ≤ x ∧ x ≤ thIndEnd 0 0 2 i) ∧
    ¬ (∀ i j x : Nat, i < 2 → j < 2 →
        thIndStart 0 0 2 i ≤ x → x ≤ thIndEnd 0 0 2 i →
        thIndStart 0 0 2 j ≤ x → x ≤ thIndEnd 0 0 2 j → i = j) := by
  refine ⟨by decide, by decide, by decide, by decide, ?_, ?_⟩
  · intro h
    have h5 := (h 5).mpr ⟨0, by decide, by decide, by decide⟩
    exact absurd h5.2 (by decide)
  · intro h
    have h01 := h 0 1 0 (by decide) (by decide) (by decide) (by decide)
      (by decide) (by decide)
    exact absurd h01 (by decide)

/-- C1 amended: for every valid inclusive range (`start ≤ end`,
`end < buffer length`) and `workerCount ≥ 1` such that additionally
`start ≥ 1` or `workerCount ≤ range length` (ruling out the wrap of C9 at
`start = 0`), the computed plan is: worker `i < workerCount - 1` gets
`[start + i*b, start + (i+1)*b - 1]` with `b = floor(len / workerCount)`,
the last worker gets `[start + (workerCount-1)*b, end]`, and the sub-ranges
are contiguous, non-overlapping, and cover the range exactly. -/
theorem claim_C1 (s e size tn : Nat) (hse : s ≤ e) (hes : e < size)
    (hsz : size < W64) (htn : 1 ≤ tn)
    (hok : 1 ≤ s ∨ tn ≤ e + 1 - s) :
    thBlockSize s e tn = (e + 1 - s) / tn ∧
    (∀ i, i < tn - 1 →
      thIndStart s e tn i = s + i * ((e + 1 - s) / tn) ∧
      thIndEnd s e tn i = s + (i + 1) * ((e + 1 - s) / tn) - 1) ∧
    (thIndStart s e tn (tn - 1) = s + (tn - 1) * ((e + 1 - s) / tn) ∧
      thIndEnd s e tn (tn - 1) = e) ∧
    (∀ i, i + 1 < tn →
      thIndStart s e tn (i + 1) = thIndEnd s e tn i + 1) ∧
    (∀ i j x : Nat, i < tn → j < tn →
      thIndStart s e tn i ≤ x → x ≤ thIndEnd s e tn i →
      thIndStart s e tn j ≤ x → x ≤ thIndEnd s e tn j → i = j) ∧
    (∀ x : Nat, (s ≤ x ∧ x ≤ e) ↔
      ∃ i, i < tn ∧ thIndStart s e tn i ≤ x ∧ x ≤ thIndEnd s e tn i) := by
  have he1 : e + 1 < W64 := by omega
  refine ⟨part_thBlockSize s e tn hse he1, ?_, ?_, ?_, ?_, ?_⟩
  · intro i hi
    exact ⟨part_thIndStart s e tn i hse he1 htn (by omega),
      part_thIndEnd_nonlast s e tn i hse he1 htn hi hok⟩
  · exact ⟨part_thIndStart s e tn (tn - 1) hse he1 htn (by omega),
      part_thIndEnd_last s e tn⟩
  · intro i hi
    rw [part_thIndStart s e tn (i + 1) hse he1 htn (by omega),
      part_thIndEnd_nonlast s e tn i hse he1 htn (by omega) hok]
    rcases part_b_pos_or_s_pos s e tn htn hok with hb1 | ⟨hb0, hs1⟩
    · have hA : (e + 1 - s) / tn ≤ (i + 1) * ((e + 1 - s) / tn) :=
        Nat.le_mul_of_pos_left _ (by omega)
      omega
    · rw [hb0]
      omega
  · intro i j x hi hj h1 h2 h3 h4
    rcases Nat.lt_trichotomy i j with h | h | h
    · exact absurd (part_no_cross s e tn i j x hse he1 htn hok h hj h2 h3) id
    · exact h
    · exact absurd (part_no_cross s e tn j i x hse he1 htn hok h hi h4 h1) id
  · intro x
    constructor
    · rintro ⟨hsx, hxe⟩
      have htn1 : tn - 1 < tn := Nat.sub_lt (by omega) (by norm_num)
      by_cases hb0 : (e + 1 - s) / tn = 0
      · refine ⟨tn - 1, htn1, ?_, ?_⟩
        · rw [part_thIndStart s e tn (tn - 1) hse he1 htn (by omega), hb0]
          omega
        · rw [part_thIndEnd_last]
          exact hxe
      · by_cases hq : tn - 1 ≤ (x - s) / ((e + 1 - s) / tn)
        · refine ⟨tn - 1, htn1, ?_, ?_⟩
          · rw [part_thIndStart s e tn (tn - 1) hse he1 htn (by omega)]
            have hd : (x - s) / ((e + 1 - s) / tn) * ((e + 1 - s) / tn)
                ≤ x - s := Nat.div_mul_le_self _ _
            have hmono : (tn - 1) * ((e + 1 - s) / tn)
                ≤ (x - s) / ((e + 1 - s) / tn) * ((e + 1 - s) / tn) :=
              mul_le_mul_right' hq _
            omega
          · rw [part_thIndEnd_last]
            exact hxe
        · have hqlt : (x - s) / ((e + 1 - s) / tn) < tn :=
            lt_of_lt_of_le (lt_of_not_le hq) (Nat.sub_le tn 1)
          refine ⟨(x - s) / ((e + 1 - s) / tn), hqlt, ?_, ?_⟩
          · rw [part_thIndStart s e tn _ hse he1 htn hqlt]
            have hd : (x - s) / ((e + 1 - s) / tn) * ((e + 1 - s) / tn)
                ≤ x - s := Nat.div_mul_le_self _ _
            have hcomm : (x - s) / ((e + 1 - s) / tn) * ((e + 1 - s) / tn)
                = ((e + 1 - s) / tn) * ((x - s) / ((e + 1 - s) / tn)) :=
              mul_comm _ _
            omega
          · rw [part_thIndEnd_nonlast s e tn _ hse he1 htn
              (lt_of_not_le hq) hok]
            have hmod := Nat.div_add_mod (x - s) ((e + 1 - s) / tn)
            have hlt : (x - s) % ((e + 1 - s) / tn) < (e + 1 - s) / tn :=
              Nat.mod_lt _ (Nat.pos_of_ne_zero hb0)
            have hexp : ((x - s) / ((e + 1 - s) / tn) + 1) * ((e + 1 - s) / tn)
                = ((e + 1 - s) / tn) * ((x - s) / ((e + 1 - s) / tn))
                  + (e + 1 - s) / tn := by ring
            omega
    · rintro ⟨i, hi, hstart, hend⟩
      rw [part_thIndStart s e tn i hse he1 htn hi] at hstart
      by_cases hlast : i = tn - 1
      · rw [hlast, part_thIndEnd_last] at hend
        constructor
        · omega
        · exact hend
      · have hi' : i < tn - 1 := by omega
        rw [part_thIndEnd_nonlast s e tn i hse he1 htn hi' hok] at hend
        rcases part_b_pos_or_s_pos s e tn htn hok with hb1 | ⟨hb0, hs1⟩
        · have hle := part_nonlast_end_le s e tn i hse he1 htn hi' hb1
          omega
        · rw [hb0] at hstart hend
          omega

/-- C1 witness: the amended theorem instantiated at range `[0,7]`, buffer
length 8, 3 workers (the preconditions hold since `3 ≤ 8`); the computed
sub-ranges cover `[0,7]` exactly. -/
theorem claim_C1_witness :
    ((0:Nat) ≤ 7 ∧ (7:Nat) < 8 ∧ (8:Nat) < W64 ∧ (1:Nat) ≤ 3 ∧
      ((1:Nat) ≤ 0 ∨ (3:Nat) ≤ 7 + 1 - 0)) ∧
    (∀ x : Nat, (0 ≤ x ∧ x ≤ 7) ↔
      ∃ i, i < 3 ∧ thIndStart 0 7 3 i ≤ x ∧ x ≤ thIndEnd 0 7 3 i) :=
  ⟨⟨by decide, by decide, by decide, by decide, by decide⟩,
    (claim_C1 0 7 8 3 (by decide) (by decide) (by decide) (by decide)
      (by decide)).2.2.2.2.2⟩

/-! ## The parallel fold computes the sequential sum -/

lemma parFold_nonlast (d : Nat → Int) (s e tn : Nat) (hse : s ≤ e)
    (he1 : e + 1 < W64) (htn : 1 ≤ tn) (hbs : 1 ≤ s ∨ tn ≤ e + 1 - s) :
    ∀ k, k ≤ tn - 1 →
      (List.range k).foldl (parStep s e tn) (d, some 0)
        = (d, some (msum d s (k * ((e + 1 - s) / tn)))) := by
  intro k
  induction k with
  | zero => intro _; simp [msum_zero]
  | succ k ih =>
      intro hk
      have hk' : k < tn - 1 := by omega
      rw [List.range_succ, List.foldl_append, ih (by omega)]
      simp only [List.foldl_cons, List.foldl_nil]
      show thread_sumSt d (thIndStart s e tn k) (thIndEnd s e tn k)
          (msum d s (k * ((e + 1 - s) / tn)))
        = (d, some (msum d s ((k + 1) * ((e + 1 - s) / tn))))
      rw [part_thIndStart s e tn k hse he1 htn (by omega),
        part_thIndEnd_nonlast s e tn k hse he1 htn hk' hbs]
      rcases part_b_pos_or_s_pos s e tn htn hbs with hb1 | ⟨hb0, hs1⟩
      · have hble := part_nonlast_end_le s e tn k hse he1 htn hk' hb1
        have hr : (k + 1) * ((e + 1 - s) / tn)
            = k * ((e + 1 - s) / tn) + (e + 1 - s) / tn := by ring
        have hguard : ¬(s + k * ((e + 1 - s) / tn)
              ≤ s + (k + 1) * ((e + 1 - s) / tn) - 1 ∧
            s + (k + 1) * ((e + 1 - s) / tn) - 1 = W64 - 1) := by
          intro hc
          omega
        rw [thread_sumSt_val d _ _ _ hguard]
        have hcnt : s + (k + 1) * ((e + 1 - s) / tn) - 1 + 1
            - (s + k * ((e + 1 - s) / tn)) = (e + 1 - s) / tn := by
          omega
        rw [hcnt, hr, msum_add]
      · rw [hb0]
        simp only [Nat.mul_zero, Nat.add_zero]
        rw [msum_zero]
        have hguard : ¬(s ≤ s - 1 ∧ s - 1 = W64 - 1) := by
          intro hc
          omega
        rw [thread_sumSt_val d s (s - 1) 0 hguard]
        have hcnt : s - 1 + 1 - s = 0 := by omega
        rw [hcnt, msum_zero]
        simp

lemma sumPar_eq_sum_aux (v : VectorRam) (s e tn : Nat) (hse : s ≤ e)
    (he1 : e + 1 < W64) (htn : 1 ≤ tn)
    (hbs : 1 ≤ s ∨ tn ≤ e + 1 - s) :
    v.SumPar s e tn = v.Sum s e := by
  have htn1 : tn - 1 < tn := Nat.sub_lt (by omega) (by norm_num)
  unfold VectorRam.SumPar VectorRam.SumParSt
  rw [if_neg (by omega : ¬ tn = 0)]
  have hrange : List.range tn = List.range (tn - 1) ++ [tn - 1] := by
    conv_lhs => rw [show tn = (tn - 1) + 1 from by omega, List.range_succ]
  rw [hrange, List.foldl_append,
    parFold_nonlast v.data s e tn hse he1 htn hbs (tn - 1) (le_refl _)]
  simp only [List.foldl_cons, List.foldl_nil]
  show (thread_sumSt v.data (thIndStart s e tn (tn - 1))
      (thIndEnd s e tn (tn - 1))
      (msum v.data s ((tn - 1) * ((e + 1 - s) / tn)))).2 = v.Sum s e
  rw [part_thIndStart s e tn (tn - 1) hse he1 htn htn1, part_thIndEnd_last]
  have hguard : ¬(s + (tn - 1) * ((e + 1 - s) / tn) ≤ e ∧ e = W64 - 1) := by
    intro hc
    omega
  rw [thread_sumSt_val v.data _ e _ hguard]
  have hA : (tn - 1) * ((e + 1 - s) / tn) ≤ e + 1 - s := by
    have h1 := part_div_mul_le s e tn htn
    have h2 : (tn - 1) * ((e + 1 - s) / tn) ≤ tn * ((e + 1 - s) / tn) :=
      mul_le_mul_right' (Nat.sub_le tn 1) _
    omega
  have hcount : e + 1 - (s + (tn - 1) * ((e + 1 - s) / tn))
      = e + 1 - s - (tn - 1) * ((e + 1 - s) / tn) := by omega
  show some _ = v.Sum s e
  rw [hcount]
  have hsplit := msum_add ((tn - 1) * ((e + 1 - s) / tn)) v.data s
    (e + 1 - s - (tn - 1) * ((e + 1 - s) / tn))
  have hm : (tn - 1) * ((e + 1 - s) / tn)
      + (e + 1 - s - (tn - 1) * ((e + 1 - s) / tn)) = e + 1 - s := by omega
  rw [hm] at hsplit
  rw [← hsplit]
  unfold VectorRam.Sum VectorRam.SumSt
  rw [if_neg (by intro hc; omega : ¬(s ≤ e ∧ e = W64 - 1))]
  rfl

/-- C2 counterexample: the claim asserts parallel = sequential over the full
range for every `workerCount ≥ 1`.  For a buffer of length 1 (element `1`)
and `workerCount = 2`, worker 0's end index wraps to `2^64 - 1` (see C9), so
the parallel call never returns a value, while the sequential sum is `1`. -/
theorem claim_C2_cex :
    ((VectorRam.mk 1 (fun _ => 0)).InitByVal 1).SumFullPar 2
      ≠ ((VectorRam.mk 1 (fun _ => 0)).InitByVal 1).SumFull := by decide

/-- C2 amended: for every buffer of an integer element type with
`1 ≤ workerCount ≤ buffer length`, the parallel sum over the full range
returns exactly the same value as the sequential sum (both as the full-range
overloads and as the ranged calls on `[0, size-1]`). -/
theorem claim_C2 (v : VectorRam) (tn : Nat) (h1 : 1 ≤ v.size)
    (hsz : v.size < W64) (htn : 1 ≤ tn) (hts : tn ≤ v.size) :
    v.SumFullPar tn = v.SumFull ∧
    v.SumPar 0 (v.size - 1) tn = v.Sum 0 (v.size - 1) := by
  have hrange : szSub v.size 1 = v.size - 1 := szSub_eq_sub _ 1 h1 hsz
  have hmain : v.SumPar 0 (v.size - 1) tn = v.Sum 0 (v.size - 1) :=
    sumPar_eq_sum_aux v 0 (v.size - 1) tn (by omega) (by omega) htn
      (by omega)
  refine ⟨?_, hmain⟩
  unfold VectorRam.SumFullPar VectorRam.SumFull
  rw [hrange]
  exact hmain

/-- C2 witness: a buffer of length 4 holding `3` everywhere, summed with 2
workers, gives the same value as the sequential full-range sum. -/
theorem claim_C2_witness :
    (1 ≤ ((VectorRam.mk 4 (fun _ => 0)).InitByVal 3).size ∧
      ((VectorRam.mk 4 (fun _ => 0)).InitByVal 3).size < W64 ∧
      (1:Nat) ≤ 2 ∧ 2 ≤ ((VectorRam.mk 4 (fun _ => 0)).InitByVal 3).size) ∧
    ((VectorRam.mk 4 (fun _ => 0)).InitByVal 3).SumFullPar 2
      = ((VectorRam.mk 4 (fun _ => 0)).InitByVal 3).SumFull :=
  ⟨⟨by decide, by decide, by decide, by decide⟩,
    (claim_C2 ((VectorRam.mk 4 (fun _ => 0)).InitByVal 3) 2 (by decide)
      (by decide) (by decide) (by decide)).1⟩
